import Mathlib

/-!
Verification of the go-kotatsu-bot command / search handlers.

Shallow embedding conventions:
* Go strings are modelled as `List Char` (`Str`); Go byte-slicing on the
  ASCII-only managed prefixes coincides with char-dropping.
* `strings.ToLower` / `strings.EqualFold` are modelled char-wise with
  `Char.toLower` (ASCII case folding, the range relevant to the fixed
  command/tag tables).
* `strings.TrimSpace` is modelled with `Char.isWhitespace`.
* Remote calls (Discord REST, AniList HTTP) are oracles passed in as data:
  each fetch is an `Except Unit _` / `RawFetch _` field of a `World` record,
  and the handler body is translated faithfully around them.
-/

deriving instance DecidableEq for Except

namespace Kotatsu

/-- Go strings, modelled as lists of characters. -/
abbrev Str := List Char

/-- Embed a Lean string literal as a `Str`. -/
def str (s : String) : Str := s.data

/-- Go `unicode.IsSpace`, restricted to the whitespace recognised by `Char.isWhitespace`. -/
def isSpace (c : Char) : Bool := c.isWhitespace

/-- Left part of `strings.TrimSpace`. -/
def trimLeft (s : Str) : Str := s.dropWhile isSpace

/-- Right part of `strings.TrimSpace`. -/
def trimRight (s : Str) : Str := (s.reverse.dropWhile isSpace).reverse

/-- Go `strings.TrimSpace`. -/
def trim (s : Str) : Str := trimRight (trimLeft s)

/-- Go `strings.ToLower`, char-wise. -/
def lower (s : Str) : Str := s.map Char.toLower

/-- Go `strings.EqualFold`, modelled as equality of char-wise lowerings. -/
def eqFold (a b : Str) : Bool := lower a == lower b

/-- Go `strings.Fields`: split on whitespace, dropping empty fields. -/
def fields (s : Str) : List Str := (s.splitOnP isSpace).filter (fun f => f ≠ [])

/-- Go `strings.TrimPrefix(s, ".")`. -/
def trimDot (s : Str) : Str := if (str ".").isPrefixOf s then s.drop 1 else s

/-! ## The command table (`commandConfig` in commands.go) -/

/-- One entry of the `commandConfig` map: command key, title prefix string,
expected forum tag name. -/
structure CmdCfg where
  key : Str
  pfx : Str
  tag : Str
  deriving DecidableEq, Repr

/-- The fixed six-entry command table from commands.go. -/
def commandConfig : List CmdCfg :=
  [ ⟨str "solved",    str "[Solved]",        str ".Solved"⟩,
    ⟨str "aware",     str "[Devs aware]",    str ".Devs aware"⟩,
    ⟨str "duplicate", str "[Duplicate]",     str ".Duplicate"⟩,
    ⟨str "false",     str "[False report]",  str ".False report"⟩,
    ⟨str "known",     str "[Known issue]",   str ".Known issue"⟩,
    ⟨str "wrong",     str "[Wrong channel]", str ".Wrong channel"⟩ ]

/-- Go map lookup `commandConfig[cmd]` (keys are unique, so `find?` is faithful). -/
def lookupCmd (cmd : Str) : Option CmdCfg := commandConfig.find? (fun c => c.key == cmd)

/-! ## TitlePrefixer (`addPrefixIfMissing` in commands.go) -/

/-- The `knownPrefixes` list inside `addPrefixIfMissing`. -/
def knownPrefixes : List Str :=
  [ str "[Solved]", str "[Devs aware]", str "[Duplicate]",
    str "[False report]", str "[Known issue]", str "[Wrong channel]" ]

/-- One iteration of the inner loop of `addPrefixIfMissing` for one known
prefix `kp`: if the lowered string starts with the lowered prefix, drop the
prefix and trim the remainder. -/
def stripOnce (s kp : Str) : Option Str :=
  if (lower kp).isPrefixOf (lower s) then some (trim (s.drop kp.length)) else none

/-- One pass of the stripping loop: the first known prefix that matches, if any. -/
def findStrip (s : Str) : Option Str := knownPrefixes.findSome? (stripOnce s)

/-- Fuelled version of the stripping loop of `addPrefixIfMissing`. -/
def stripKnownF : Nat → Str → Str
  | 0, s => s
  | f + 1, s =>
    match findStrip s with
    | some s2 => stripKnownF f s2
    | none => s

/-- The stripping loop of `addPrefixIfMissing`: repeatedly remove known
managed prefixes (case-insensitively) from the front, trimming after each
removal, until none matches.  `s.length + 1` fuel always suffices because
each removal strictly shortens the string. -/
def stripKnown (s : Str) : Str := stripKnownF (s.length + 1) s

/-- The function `addPrefixIfMissing(name, prefix)` from commands.go. -/
def addPrefixIfMissing (name p : Str) : Str := p ++ ' ' :: stripKnown (trim name)

/-! ## PermissionEvaluator (`userCanManagePosts` in commands.go) -/

/-- discordgo permission bit constants used by the handler. -/
def permAdministrator : Nat := 8
def permManageChannels : Nat := 16
def permManageMessages : Nat := 8192
def permManageRoles : Nat := 268435456

/-- The `needed` constant of the default permission mode. -/
def neededPerms : Nat :=
  permManageChannels ||| permManageRoles ||| permManageMessages ||| permAdministrator

/-- Runtime configuration (config.go, including the search fields). -/
structure Config where
  allowedRoleIDs : List Str
  allowedPermissions : List Str
  searchEnabled : Option Bool
  searchChannels : List Str
  deriving DecidableEq, Repr

/-- One arm of the `switch name` inside the permission-name mode. -/
def permNameBit (perms : Nat) (name : Str) : Bool :=
  if name == str "ADMINISTRATOR" then perms &&& permAdministrator != 0
  else if name == str "MANAGE_CHANNELS" then perms &&& permManageChannels != 0
  else if name == str "MANAGE_ROLES" then perms &&& permManageRoles != 0
  else if name == str "MANAGE_MESSAGES" then perms &&& permManageMessages != 0
  else false

/-- The permission check `userCanManagePosts`.  Here `permsFetch` is the oracle for
`s.UserChannelPermissions`, `memberRolesFetch` the oracle for
`s.GuildMember(..).Roles`. -/
def userCanManagePosts (cfg : Option Config) (permsFetch : Except Unit Nat)
    (memberRolesFetch : Except Unit (List Str)) : Except Unit Bool :=
  match permsFetch with
  | .error e => .error e
  | .ok perms =>
    match cfg with
    | some c =>
      if c.allowedRoleIDs ≠ [] then
        match memberRolesFetch with
        | .error e => .error e
        | .ok roles => .ok (roles.any (fun r => c.allowedRoleIDs.any (fun a => r == a)))
      else if c.allowedPermissions ≠ [] then
        .ok (c.allowedPermissions.any (fun n => permNameBit perms n))
      else .ok (perms &&& neededPerms != 0)
    | none => .ok (perms &&& neededPerms != 0)

/-! ## TagReconciler (inline in `onMessageCreate`, commands.go lines 232-291) -/

/-- A forum tag as decoded from the parent channel payload. -/
structure ForumTag where
  id : Str
  name : Str
  deriving DecidableEq, Repr

/-- Membership in the `dotTagIDs` set: some available tag has this id and a
name starting with the reserved marker ".". -/
def isDotTagID (available : List ForumTag) (tid : Str) : Bool :=
  available.any (fun t => t.id == tid && (str ".").isPrefixOf t.name)

/-- The `tagID` computed by the available-tags loop: the id of the last
available tag whose name case-insensitively equals `tagName`, or `""`. -/
def resolveTagID (available : List ForumTag) (tagName : Str) : Str :=
  available.foldl (fun acc t => if eqFold t.name tagName then t.id else acc) []

/-- The new applied-tag list (commands.go lines 274-291): keep non-dot tags,
then append the desired tag id if not already present. -/
def computeNewApplied (available : List ForumTag) (tagID : Str)
    (applied : List Str) : List Str :=
  let kept := applied.filter (fun a => !(isDotTagID available a))
  if kept.contains tagID then kept else kept ++ [tagID]

/-! ## The command flow (`onMessageCreate` in commands.go) -/

/-- The parts of a discordgo Channel the handler reads.  `availableTags` /
`appliedTags` stand for the corresponding fields of the marshaled struct
(used by the raw-REST fallback paths). -/
structure Chan where
  id : Str
  parentID : Str
  guildID : Str
  name : Str
  ctype : Nat
  nsfw : Bool
  availableTags : List ForumTag
  appliedTags : List Str
  deriving DecidableEq, Repr

/-- The check `isThreadChannel`: discordgo public (11) / private (12) thread types. -/
def isThreadChannel (ch : Chan) : Bool := ch.ctype == 11 || ch.ctype == 12

/-- Decoded shape of the raw parent-channel JSON: top-level `available_tags`
plus the optional `forum_metadata.available_tags` fallback. -/
structure TagListPayload where
  availableTags : List ForumTag
  forumMetadata : Option (List ForumTag)
  deriving DecidableEq, Repr

/-- Decoded shape of the raw thread-channel JSON. -/
structure ThreadPayload where
  appliedTags : List Str
  deriving DecidableEq, Repr

/-- Outcome of a raw REST GET followed by `json.Unmarshal`. -/
inductive RawFetch (α : Type)
  | fetchErr
  | decodeErr
  | ok (val : α)
  deriving DecidableEq, Repr

/-- Outcome of the `ChannelEdit` call raced against the 15s timeout. -/
inductive EditOutcome
  | timeout
  | restErr (status : Nat)
  | otherErr
  | ok (newName : Str) (newTags : List Str)
  deriving DecidableEq, Repr

/-- The structured content of the messages the handler can post. -/
inductive MsgText
  | listTagsDenied
  | listTagsReply (available : List ForumTag) (applied : List Str)
  | permDenied (userID : Str)
  | tagNotFound (tagName : Str)
  | timeoutMsg
  | rateLimitMsg
  | forbiddenMsg
  | notFoundMsg
  | serverErrMsg
  | genericErrMsg (status : Nat)
  | unknownErrMsg
  | updatedMsg (newName : Str)
  deriving DecidableEq, Repr

/-- The observable side effects of one `onMessageCreate` invocation. -/
inductive Effect
  | sendMsg (channelID : Str) (text : MsgText)
  | channelEdit (channelID : Str) (newName : Str) (newTags : List Str)
  deriving DecidableEq, Repr

/-- Oracles for the remote calls one command invocation can make. -/
structure World where
  channelFetch : Except Unit Chan
  permsFetch : Except Unit Nat
  memberRolesFetch : Except Unit (List Str)
  parentChanFetch : Except Unit Chan
  parentRawFetch : RawFetch TagListPayload
  threadRawFetch : RawFetch ThreadPayload
  threadChanFetch : Except Unit Chan
  editResult : EditOutcome
  deriving Repr

/-- The fields of an inbound message the handler reads. -/
structure Msg where
  content : Str
  authorMissing : Bool
  authorBot : Bool
  authorID : Str
  channelID : Str
  deriving DecidableEq, Repr

/-- Handler state (main.go): watched forum parents and config. -/
structure Handler where
  watchedParents : List Str
  cfg : Option Config
  deriving Repr

/-- The command key parsed from the message: first whitespace field of the
trimmed content, lowered, with one leading "." stripped. -/
def parsedCmdKey (content : Str) : Str :=
  trimDot (lower ((fields (trim content)).headD []))

/-- The parent payload used by the main command flow (lines 194-218): raw
GET preferred; on fetch error fall back to the marshaled parent struct
(which has no `forum_metadata`); on a decode error of the raw payload the
flow aborts (`none`). -/
def parentPayload (w : World) (parent : Chan) : Option TagListPayload :=
  match w.parentRawFetch with
  | .ok payload => some payload
  | .fetchErr => some ⟨parent.availableTags, none⟩
  | .decodeErr => none

/-- Normalisation of the available-tag catalog (lines 221-224): prefer
top-level `available_tags`, fall back to `forum_metadata.available_tags`. -/
def availableOf (p : TagListPayload) : List ForumTag :=
  if p.availableTags == [] then p.forumMetadata.getD [] else p.availableTags

/-- The thread payload used by the main flow (lines 252-272): raw GET
preferred; on fetch error fall back to `s.Channel` (whose failure aborts);
on decode error abort. -/
def threadPayload (w : World) : Option ThreadPayload :=
  match w.threadRawFetch with
  | .ok p => some p
  | .fetchErr =>
    match w.threadChanFetch with
    | .error _ => none
    | .ok th => some ⟨th.appliedTags⟩
  | .decodeErr => none

/-- The user-facing message chosen from the `ChannelEdit` REST status
(lines 352-388). -/
def statusMsg (status : Nat) : MsgText :=
  if status == 429 then .rateLimitMsg
  else if status == 403 then .forbiddenMsg
  else if status == 404 then .notFoundMsg
  else if status == 500 || status == 502 || status == 503 || status == 504 then .serverErrMsg
  else .genericErrMsg status

/-- The `.list-tags` branch (lines 93-164).  Its fetch fallbacks never
abort: a failed parent fetch falls back to `s.Channel` and then to `"{}"`,
and unmarshal errors are ignored (zero values). -/
def listTagsEffects (w : World) (m : Msg) (has : Bool) : List Effect :=
  if !has then [.sendMsg m.channelID .listTagsDenied]
  else
    let payload : TagListPayload :=
      match w.parentRawFetch with
      | .ok p => p
      | .fetchErr =>
        match w.parentChanFetch with
        | .error _ => ⟨[], none⟩
        | .ok pc => ⟨pc.availableTags, none⟩
      | .decodeErr => ⟨[], none⟩
    let available := availableOf payload
    let tdata : ThreadPayload :=
      match w.threadRawFetch with
      | .ok p => p
      | .fetchErr =>
        match w.threadChanFetch with
        | .error _ => ⟨[]⟩
        | .ok th => ⟨th.appliedTags⟩
      | .decodeErr => ⟨[]⟩
    [.sendMsg m.channelID (.listTagsReply available tdata.appliedTags)]

/-- The effects of the edit attempt and its reporting (lines 300-402). -/
def editEffects (w : World) (m : Msg) (ch : Chan) (newName : Str)
    (newApplied : List Str) : List Effect :=
  Effect.channelEdit ch.id newName newApplied ::
    match w.editResult with
    | .timeout => [.sendMsg m.channelID .timeoutMsg]
    | .restErr status => [.sendMsg m.channelID (statusMsg status)]
    | .otherErr => [.sendMsg m.channelID .unknownErrMsg]
    | .ok _ _ => [.sendMsg m.channelID (.updatedMsg newName)]

/-- The handler `onMessageCreate`, command path: the ordered list of observable side
effects (messages posted, channel edit attempted).  The non-command path
(search) is dispatched to a separate task and modelled by
`trySearchLookups` below. -/
def onMessage (h : Handler) (w : World) (m : Msg) : List Effect :=
  if m.authorMissing || m.authorBot then []
  else
    let content := trim m.content
    if content == [] then []
    else if !((str ".").isPrefixOf content) then []
    else
      let cmd := parsedCmdKey m.content
      match lookupCmd cmd with
      | none => []
      | some cfg =>
        match w.channelFetch with
        | .error _ => []
        | .ok ch =>
          if !(isThreadChannel ch) then []
          else if h.watchedParents != [] &&
              (ch.parentID == ([] : Str) || !(h.watchedParents.contains ch.parentID)) then []
          else
            match userCanManagePosts h.cfg w.permsFetch w.memberRolesFetch with
            | .error _ => []
            | .ok has =>
              if cmd == str "list-tags" then listTagsEffects w m has
              else if !has then [.sendMsg m.channelID (.permDenied m.authorID)]
              else
                match w.parentChanFetch with
                | .error _ => []
                | .ok parent =>
                  match parentPayload w parent with
                  | none => []
                  | some payload =>
                    let available := availableOf payload
                    let tagID := resolveTagID available cfg.tag
                    if tagID == [] then [.sendMsg m.channelID (.tagNotFound cfg.tag)]
                    else
                      match threadPayload w with
                      | none => []
                      | some tdata =>
                        let newApplied := computeNewApplied available tagID tdata.appliedTags
                        let newName := addPrefixIfMissing ch.name cfg.pfx
                        editEffects w m ch newName newApplied

/-! ## Supporting lemmas: case folding and tag resolution -/

theorem toNat_ofNat_valid {n : Nat} (h : n < 55296) : (Char.ofNat n).toNat = n := by
  have hv : n.isValidChar := Or.inl h
  rw [Char.ofNat, dif_pos hv]
  rfl

theorem toLower_eq_dot {c : Char} (h : c.toLower = '.') : c = '.' := by
  by_cases hc : c.toNat ≥ 65 ∧ c.toNat ≤ 90
  · exfalso
    have h2 : (Char.ofNat (c.toNat + 32)).toNat = ('.' : Char).toNat := by
      rw [← h]
      unfold Char.toLower
      rw [if_pos hc]
    rw [toNat_ofNat_valid (by omega)] at h2
    have hdot : ('.' : Char).toNat = 46 := by decide
    omega
  · unfold Char.toLower at h
    rw [if_neg hc] at h
    exact h

/-- If the fold of `resolveTagID` produced something other than its initial
accumulator, some available tag matched case-insensitively and supplied
that id. -/
theorem resolve_foldl_spec (l : List ForumTag) (tagName : Str) :
    ∀ acc, (l.foldl (fun acc t => if eqFold t.name tagName then t.id else acc) acc = acc)
      ∨ ∃ t ∈ l, eqFold t.name tagName = true ∧
          l.foldl (fun acc t => if eqFold t.name tagName then t.id else acc) acc = t.id := by
  induction l with
  | nil => intro acc; exact Or.inl rfl
  | cons t l ih =>
    intro acc
    simp only [List.foldl_cons]
    rcases ih (if eqFold t.name tagName then t.id else acc) with h | ⟨u, hu, hequ, hres⟩
    · rw [h]
      by_cases hf : eqFold t.name tagName = true
      · exact Or.inr ⟨t, List.mem_cons_self .., hf, by rw [if_pos hf]⟩
      · rw [if_neg hf]
        exact Or.inl rfl
    · exact Or.inr ⟨u, List.mem_cons_of_mem _ hu, hequ, hres⟩

theorem resolveTagID_spec {available : List ForumTag} {tagName tagID : Str}
    (h : resolveTagID available tagName = tagID) (hne : tagID ≠ []) :
    ∃ t ∈ available, eqFold t.name tagName = true ∧ t.id = tagID := by
  rcases resolve_foldl_spec available tagName [] with h0 | ⟨t, ht, heq, hres⟩
  · exfalso
    apply hne
    rw [← h, resolveTagID]
    exact h0
  · rw [resolveTagID] at h
    exact ⟨t, ht, heq, by rw [hres] at h; exact h⟩

/-- If no entry matches, the resolution fold keeps its accumulator. -/
theorem foldl_resolve_id (l : List ForumTag) (tagName : Str) :
    ∀ acc, (∀ t ∈ l, eqFold t.name tagName = false) →
      l.foldl (fun acc t => if eqFold t.name tagName then t.id else acc) acc = acc := by
  induction l with
  | nil => intro acc _; rfl
  | cons t l ih =>
    intro acc h
    simp only [List.foldl_cons, h t (List.mem_cons_self ..), Bool.false_eq_true, if_false]
    exact ih acc (fun u hu => h u (List.mem_cons_of_mem _ hu))

/-- If no available tag matches, the fold keeps its initial `""`. -/
theorem resolveTagID_nil {available : List ForumTag} {tagName : Str}
    (h : ∀ t ∈ available, eqFold t.name tagName = false) :
    resolveTagID available tagName = [] :=
  foldl_resolve_id available tagName [] h

/-- Every status tag name in the command table starts with the marker ".". -/
theorem cmdCfg_tag_dot {cfg : CmdCfg} (h : cfg ∈ commandConfig) :
    ∃ r, cfg.tag = '.' :: r := by
  simp only [commandConfig, List.mem_cons, List.not_mem_nil, or_false] at h
  rcases h with rfl | rfl | rfl | rfl | rfl | rfl <;> exact ⟨_, rfl⟩

/-- A tag whose name case-insensitively equals a command's status tag name
itself starts with ".". -/
theorem matched_name_dot {cfg : CmdCfg} (hcfg : cfg ∈ commandConfig)
    {t : ForumTag} (h : eqFold t.name cfg.tag = true) :
    (str ".").isPrefixOf t.name = true := by
  obtain ⟨r, hr⟩ := cmdCfg_tag_dot hcfg
  rw [eqFold, beq_iff_eq] at h
  cases hn : t.name with
  | nil =>
    rw [hn, hr] at h
    simp [lower] at h
  | cons c cs =>
    rw [hn, hr] at h
    simp only [lower, List.map_cons, List.cons.injEq] at h
    have hc : c = '.' := toLower_eq_dot (by
      have := h.1
      simpa using this)
    rw [hc]
    simp [str, List.isPrefixOf]

/-- The matched tag id is in the `dotTagIDs` set. -/
theorem resolved_isDot {available : List ForumTag} {cfg : CmdCfg} {tagID : Str}
    (hcfg : cfg ∈ commandConfig)
    (h : resolveTagID available cfg.tag = tagID) (hne : tagID ≠ []) :
    isDotTagID available tagID = true := by
  obtain ⟨t, ht, heq, hid⟩ := resolveTagID_spec h hne
  rw [isDotTagID, List.any_eq_true]
  exact ⟨t, ht, by rw [hid, matched_name_dot hcfg heq]; simp⟩

/--
C1 (confirmed): for every parent tag catalog, requested command and applied
tag-id list, provided the tag resolution succeeded (a nonempty `tagID` was
found), the new applied list computed by the command flow has managed
subset exactly `[tagID]`, where `tagID` is the id of a catalog tag whose
name case-insensitively equals the command's status tag name, and its
unmanaged entries equal the unmanaged entries of the input list verbatim
(order and duplicates included).
-/
theorem tagReconciler_managed_exclusive
    (available : List ForumTag) (applied : List Str) (cfg : CmdCfg) (tagID : Str)
    (hcfg : cfg ∈ commandConfig)
    (hid : resolveTagID available cfg.tag = tagID) (hne : tagID ≠ []) :
    (computeNewApplied available tagID applied).filter
        (fun i => isDotTagID available i) = [tagID] ∧
    (∃ t ∈ available, eqFold t.name cfg.tag = true ∧ t.id = tagID) ∧
    (computeNewApplied available tagID applied).filter
        (fun i => !(isDotTagID available i)) =
      applied.filter (fun i => !(isDotTagID available i)) := by
  have hdot : isDotTagID available tagID = true := resolved_isDot hcfg hid hne
  have hnotin : (applied.filter (fun a => !(isDotTagID available a))).contains tagID = false := by
    rw [List.contains_eq_any_beq, List.any_eq_false]
    intro x hx
    rcases List.mem_filter.mp hx with ⟨_, hxdot⟩
    intro hbeq
    rw [beq_iff_eq] at hbeq
    rw [← hbeq, hdot] at hxdot
    simp at hxdot
  have hform : computeNewApplied available tagID applied =
      applied.filter (fun a => !(isDotTagID available a)) ++ [tagID] := by
    simp only [computeNewApplied]
    rw [hnotin]
    simp
  refine ⟨?_, resolveTagID_spec hid hne, ?_⟩
  · rw [hform, List.filter_append, List.filter_filter]
    have h1 : applied.filter (fun a => isDotTagID available a && !(isDotTagID available a)) = [] := by
      simp
    rw [h1]
    simp [hdot]
  · rw [hform, List.filter_append, List.filter_filter]
    have h2 : [tagID].filter (fun i => !(isDotTagID available i)) = [] := by
      simp [hdot]
    rw [h2, List.append_nil]
    apply List.filter_congr
    intro x _
    simp [Bool.and_self]

/-- Witness for C1 at a concrete catalog and applied list (the spec §8
example: catalog {A=".Solved", B=".Duplicate", C="bug"}, applied [B, C],
requesting ".Solved" yields unmanaged [C] preserved and managed [A]). -/
theorem tagReconciler_managed_exclusive_witness :
    ((⟨str "solved", str "[Solved]", str ".Solved"⟩ : CmdCfg) ∈ commandConfig) ∧
    resolveTagID
        [⟨str "A", str ".Solved"⟩, ⟨str "B", str ".Duplicate"⟩, ⟨str "C", str "bug"⟩]
        (str ".Solved") = str "A" ∧
    (computeNewApplied
        [⟨str "A", str ".Solved"⟩, ⟨str "B", str ".Duplicate"⟩, ⟨str "C", str "bug"⟩]
        (str "A") [str "B", str "C"]).filter
        (fun i => isDotTagID
          [⟨str "A", str ".Solved"⟩, ⟨str "B", str ".Duplicate"⟩, ⟨str "C", str "bug"⟩] i)
      = [str "A"] := by
  refine ⟨by decide, by decide, ?_⟩
  exact (tagReconciler_managed_exclusive
    [⟨str "A", str ".Solved"⟩, ⟨str "B", str ".Duplicate"⟩, ⟨str "C", str "bug"⟩]
    [str "B", str "C"] ⟨str "solved", str "[Solved]", str ".Solved"⟩ (str "A")
    (by decide) (by decide) (by decide)).1

/-! ## Permission evaluator: C4 and C10 -/

theorem land_lor_distrib (a b c : Nat) : a &&& (b ||| c) = a &&& b ||| a &&& c := by
  apply Nat.eq_of_testBit_eq
  intro i
  simp only [Nat.testBit_and, Nat.testBit_or, Bool.and_or_distrib_left]

theorem lor_eq_zero_iff {a b : Nat} : a ||| b = 0 ↔ a = 0 ∧ b = 0 := by
  constructor
  · intro h
    have ht : ∀ i, a.testBit i = false ∧ b.testBit i = false := by
      intro i
      have hbit := congrArg (fun n => Nat.testBit n i) h
      simp only [Nat.testBit_or, Nat.zero_testBit, Bool.or_eq_false_iff] at hbit
      exact hbit
    exact ⟨Nat.eq_of_testBit_eq (fun i => by simp [(ht i).1]),
           Nat.eq_of_testBit_eq (fun i => by simp [(ht i).2])⟩
  · rintro ⟨rfl, rfl⟩
    rfl

theorem lor_bne_zero (x y : Nat) : (x ||| y != 0) = ((x != 0) || (y != 0)) := by
  rw [Bool.eq_iff_iff]
  simp only [bne_iff_ne, ne_eq, Bool.or_eq_true]
  constructor
  · intro h
    by_contra hc
    rw [not_or, not_not, not_not] at hc
    exact h (lor_eq_zero_iff.mpr ⟨hc.1, hc.2⟩)
  · intro h hz
    rcases lor_eq_zero_iff.mp hz with ⟨h1, h2⟩
    rcases h with h | h
    · exact h h1
    · exact h h2

/--
C4 (confirmed): when both `AllowedRoleIDs` and `AllowedPermissions` are
non-empty, authorization is decided solely by role membership (the
permission bitmask `perms` is arbitrary and ignored): the result is `ok`
of whether the member's roles intersect the allowed role ids.  When
neither list is configured (no config, or both lists empty), the user is
authorized iff the channel permission bitmask intersects the fixed set
{manage-channels, manage-roles, manage-messages, administrator}.
-/
theorem permissionEvaluator_modes (c : Config) (cfg : Option Config)
    (perms : Nat) (roles : List Str)
    (mr : Except Unit (List Str))
    (hroles : c.allowedRoleIDs ≠ [])
    (hperms : c.allowedPermissions ≠ [])
    (hdefault : cfg = none ∨ ∃ c0, cfg = some c0 ∧ c0.allowedRoleIDs = [] ∧
      c0.allowedPermissions = []) :
    userCanManagePosts (some c) (.ok perms) (.ok roles) =
      .ok (roles.any (fun r => c.allowedRoleIDs.any (fun a => r == a))) ∧
    (userCanManagePosts cfg (.ok perms) mr = .ok (perms &&& neededPerms != 0) ∧
      ((perms &&& neededPerms != 0) =
        ((perms &&& permManageChannels != 0) || (perms &&& permManageRoles != 0) ||
         (perms &&& permManageMessages != 0) || (perms &&& permAdministrator != 0)))) := by
  refine ⟨?_, ?_, ?_⟩
  · simp only [userCanManagePosts]
    simp [hroles]
  · rcases hdefault with rfl | ⟨c0, rfl, hr0, hp0⟩
    · rfl
    · simp only [userCanManagePosts]
      simp [hr0, hp0]
  · have hdistrib : perms &&& neededPerms =
        perms &&& permManageChannels ||| perms &&& permManageRoles |||
          perms &&& permManageMessages ||| perms &&& permAdministrator := by
      rw [neededPerms, land_lor_distrib, land_lor_distrib, land_lor_distrib]
    rw [hdistrib, lor_bne_zero, lor_bne_zero, lor_bne_zero]

/-- Witness for C4: a user with only a matching role in role mode, and a
user with only `MANAGE_MESSAGES` (bit 13) in default mode. -/
theorem permissionEvaluator_modes_witness :
    userCanManagePosts
        (some ⟨[str "modrole"], [str "ADMINISTRATOR"], none, []⟩)
        (.ok 0) (.ok [str "member", str "modrole"]) = .ok true ∧
    userCanManagePosts none (.ok 8192) (.ok []) = .ok true := by
  have h := permissionEvaluator_modes
    ⟨[str "modrole"], [str "ADMINISTRATOR"], none, []⟩ none 8192
    [str "member", str "modrole"] (.ok []) (by decide) (by decide) (Or.inl rfl)
  refine ⟨?_, ?_⟩
  · have h1 := permissionEvaluator_modes
      ⟨[str "modrole"], [str "ADMINISTRATOR"], none, []⟩ none 0
      [str "member", str "modrole"] (.ok []) (by decide) (by decide) (Or.inl rfl)
    rw [h1.1]
    decide
  · rw [h.2.1]
    decide

/--
C10 (confirmed): in permission-name mode (no allowed role ids, non-empty
allowed permission names), names outside the recognized four are ignored,
so a list of only unrecognized names yields `ok false` for every bitmask.
-/
theorem unrecognized_permission_names_ignored (c : Config) (perms : Nat)
    (mr : Except Unit (List Str))
    (hroles : c.allowedRoleIDs = [])
    (hnonempty : c.allowedPermissions ≠ [])
    (hunrec : ∀ n ∈ c.allowedPermissions,
      n ≠ str "ADMINISTRATOR" ∧ n ≠ str "MANAGE_CHANNELS" ∧
      n ≠ str "MANAGE_ROLES" ∧ n ≠ str "MANAGE_MESSAGES") :
    userCanManagePosts (some c) (.ok perms) mr = .ok false := by
  simp only [userCanManagePosts]
  simp only [hroles, ne_eq, not_true_eq_false, if_false, hnonempty, not_false_eq_true,
    if_true, reduceCtorEq]
  have hany : c.allowedPermissions.any (fun n => permNameBit perms n) = false := by
    rw [List.any_eq_false]
    intro n hn
    obtain ⟨h1, h2, h3, h4⟩ := hunrec n hn
    rw [permNameBit]
    rw [if_neg (by simp [h1]), if_neg (by simp [h2]), if_neg (by simp [h3]),
      if_neg (by simp [h4])]
    simp
  rw [hany]

/-- Witness for C10: `allowed_permissions: [MODERATOR]` (unrecognized)
denies even a full administrator bitmask. -/
theorem unrecognized_permission_names_ignored_witness :
    userCanManagePosts (some ⟨[], [str "MODERATOR"], none, []⟩)
      (.ok 268443672) (.ok []) = .ok false :=
  unrecognized_permission_names_ignored ⟨[], [str "MODERATOR"], none, []⟩
    268443672 (.ok []) (by decide) (by decide) (by decide)

/-! ## Command flow: C5, C6, C9 -/

theorem lookupCmd_mem {cmd : Str} {cfg : CmdCfg} (h : lookupCmd cmd = some cfg) :
    cfg ∈ commandConfig ∧ cfg.key = cmd :=
  ⟨List.mem_of_find?_eq_some h, by
    have h2 := List.find?_some h
    rwa [beq_iff_eq] at h2⟩

/-- The key "list-tags" is not a key of the command table, so a successful lookup
rules it out. -/
theorem lookupCmd_ne_listTags {cmd : Str} {cfg : CmdCfg} (h : lookupCmd cmd = some cfg) :
    (cmd == str "list-tags") = false := by
  obtain ⟨hmem, hkey⟩ := lookupCmd_mem h
  rw [beq_eq_false_iff_ne]
  intro hc
  subst hc
  simp only [commandConfig, List.mem_cons, List.not_mem_nil, or_false] at hmem
  rcases hmem with rfl | rfl | rfl | rfl | rfl | rfl <;> exact absurd hkey (by decide)

/-- The effects only the dead `.list-tags` branch can produce. -/
def isListTagsEffect : Effect → Bool
  | .sendMsg _ .listTagsDenied => true
  | .sendMsg _ (.listTagsReply _ _) => true
  | _ => false

theorem statusMsg_not_listTags (c : Str) (s : Nat) :
    isListTagsEffect (.sendMsg c (statusMsg s)) = false := by
  unfold statusMsg
  repeat' split
  all_goals rfl

theorem editEffects_no_listTags (w : World) (m : Msg) (ch : Chan) (n : Str)
    (a : List Str) :
    (editEffects w m ch n a).all (fun e => !(isListTagsEffect e)) = true := by
  rw [editEffects]
  cases he : w.editResult with
  | timeout => rfl
  | restErr s =>
    simp only [List.all_cons, List.all_nil, statusMsg_not_listTags]
    rfl
  | otherErr => rfl
  | ok a b => rfl

/--
C9 (confirmed): the `.list-tags` branch of `onMessageCreate` is
unreachable — the command-table lookup returns early for every key not in
the six-entry table, and `"list-tags"` is not a key of that table, so no
invocation ever produces a list-tags reply (or its permission-denied
variant).
-/
theorem listTags_branch_unreachable (h : Handler) (w : World) (m : Msg) :
    (onMessage h w m).all (fun e => !(isListTagsEffect e)) = true := by
  simp only [onMessage]
  split
  · rfl
  split
  · rfl
  split
  · rfl
  split
  · rfl
  rename_i cfg hlook
  split
  · rfl
  rename_i ch hch
  split
  · rfl
  split
  · rfl
  split
  · rfl
  rename_i has hperm
  rw [lookupCmd_ne_listTags hlook]
  simp only [Bool.false_eq_true, if_false]
  split
  · rfl
  split
  · rfl
  rename_i parent hparent
  split
  · rfl
  rename_i payload hpayload
  split
  · rfl
  split
  · rfl
  rename_i tdata htdata
  exact editEffects_no_listTags w m ch _ _

/--
C5 (confirmed): when a recognized command reaches the tag-resolution step
and no tag in the parent's available catalog case-insensitively matches
the command's status tag name, the flow aborts before any remote mutation
(no `ChannelEdit` is attempted) and posts exactly one message, a
"tag not found" text naming the expected tag.
-/
theorem tagNotFound_aborts (h : Handler) (w : World) (m : Msg) (cfg : CmdCfg)
    (ch parent : Chan) (payload : TagListPayload)
    (hauthor : m.authorMissing = false) (hbot : m.authorBot = false)
    (hne : trim m.content ≠ [])
    (hdotp : (str ".").isPrefixOf (trim m.content) = true)
    (hlook : lookupCmd (parsedCmdKey m.content) = some cfg)
    (hch : w.channelFetch = .ok ch)
    (hthread : isThreadChannel ch = true)
    (hwatch : (h.watchedParents != [] &&
      (ch.parentID == ([] : Str) || !(h.watchedParents.contains ch.parentID))) = false)
    (hperm : userCanManagePosts h.cfg w.permsFetch w.memberRolesFetch = .ok true)
    (hparent : w.parentChanFetch = .ok parent)
    (hpayload : parentPayload w parent = some payload)
    (hnomatch : ∀ t ∈ availableOf payload, eqFold t.name cfg.tag = false) :
    onMessage h w m = [.sendMsg m.channelID (.tagNotFound cfg.tag)] := by
  have hne2 : (trim m.content == ([] : Str)) = false := by rwa [beq_eq_false_iff_ne]
  have hres : resolveTagID (availableOf payload) cfg.tag = [] := resolveTagID_nil hnomatch
  simp only [onMessage, hauthor, hbot, Bool.or_self, Bool.false_eq_true, if_false,
    hne2, hdotp, Bool.not_true, hlook, hch, hthread, hwatch, hperm,
    lookupCmd_ne_listTags hlook, hparent, hpayload, hres, Bool.not_false, if_true]
  rfl

/-- Witness for C5: a `.solved` command in a thread whose forum only
defines the unmanaged tag "bug". -/
theorem tagNotFound_aborts_witness :
    onMessage
      ⟨[], none⟩
      ⟨.ok ⟨str "t1", str "p1", str "g1", str "My issue", 11, false, [], []⟩,
       .ok 8192, .ok [],
       .ok ⟨str "p1", str "", str "g1", str "Forum", 15, false, [], []⟩,
       .ok ⟨[⟨str "x1", str "bug"⟩], none⟩,
       .ok ⟨[]⟩, .error (), .ok (str "n") []⟩
      ⟨str ".solved", false, false, str "u1", str "c1"⟩
      = [.sendMsg (str "c1") (.tagNotFound (str ".Solved"))] := by
  exact tagNotFound_aborts
    ⟨[], none⟩
    ⟨.ok ⟨str "t1", str "p1", str "g1", str "My issue", 11, false, [], []⟩,
     .ok 8192, .ok [],
     .ok ⟨str "p1", str "", str "g1", str "Forum", 15, false, [], []⟩,
     .ok ⟨[⟨str "x1", str "bug"⟩], none⟩,
     .ok ⟨[]⟩, .error (), .ok (str "n") []⟩
    ⟨str ".solved", false, false, str "u1", str "c1"⟩
    ⟨str "solved", str "[Solved]", str ".Solved"⟩
    ⟨str "t1", str "p1", str "g1", str "My issue", 11, false, [], []⟩
    ⟨str "p1", str "", str "g1", str "Forum", 15, false, [], []⟩
    ⟨[⟨str "x1", str "bug"⟩], none⟩
    rfl rfl (by decide) (by decide) (by decide) rfl rfl (by decide) rfl rfl
    (by decide) (by decide)

/--
C6 (confirmed): for a recognized command in an eligible thread, if the
permission check returns "not authorized" the flow performs no remote
mutation and posts exactly one denial message mentioning the user; if the
permission lookup itself fails, the flow aborts with no mutation and no
message at all.
-/
theorem unauthorized_no_mutation (h : Handler) (w : World) (m : Msg) (cfg : CmdCfg)
    (ch : Chan)
    (hauthor : m.authorMissing = false) (hbot : m.authorBot = false)
    (hne : trim m.content ≠ [])
    (hdotp : (str ".").isPrefixOf (trim m.content) = true)
    (hlook : lookupCmd (parsedCmdKey m.content) = some cfg)
    (hch : w.channelFetch = .ok ch)
    (hthread : isThreadChannel ch = true)
    (hwatch : (h.watchedParents != [] &&
      (ch.parentID == ([] : Str) || !(h.watchedParents.contains ch.parentID))) = false) :
    (userCanManagePosts h.cfg w.permsFetch w.memberRolesFetch = .ok false →
      onMessage h w m = [.sendMsg m.channelID (.permDenied m.authorID)]) ∧
    (∀ e, userCanManagePosts h.cfg w.permsFetch w.memberRolesFetch = .error e →
      onMessage h w m = []) := by
  have hne2 : (trim m.content == ([] : Str)) = false := by rwa [beq_eq_false_iff_ne]
  constructor
  · intro hperm
    simp only [onMessage, hauthor, hbot, Bool.or_self, Bool.false_eq_true, if_false,
      hne2, hdotp, Bool.not_true, hlook, hch, hthread, hwatch, hperm,
      lookupCmd_ne_listTags hlook, Bool.not_false, if_true]
  · intro e hperm
    simp only [onMessage, hauthor, hbot, Bool.or_self, Bool.false_eq_true, if_false,
      hne2, hdotp, Bool.not_true, hlook, hch, hthread, hwatch, hperm,
      Bool.not_false, if_true]

/-- Witness for C6: a `.solved` command by a user whose permission bitmask
has none of the four moderator bits. -/
theorem unauthorized_no_mutation_witness :
    onMessage
      ⟨[], none⟩
      ⟨.ok ⟨str "t1", str "p1", str "g1", str "My issue", 11, false, [], []⟩,
       .ok 0, .ok [], .error (), .fetchErr, .fetchErr, .error (), .timeout⟩
      ⟨str ".solved", false, false, str "u1", str "c1"⟩
      = [.sendMsg (str "c1") (.permDenied (str "u1"))] := by
  exact (unauthorized_no_mutation
    ⟨[], none⟩
    ⟨.ok ⟨str "t1", str "p1", str "g1", str "My issue", 11, false, [], []⟩,
     .ok 0, .ok [], .error (), .fetchErr, .fetchErr, .error (), .timeout⟩
    ⟨str ".solved", false, false, str "u1", str "c1"⟩
    ⟨str "solved", str "[Solved]", str ".Solved"⟩
    ⟨str "t1", str "p1", str "g1", str "My issue", 11, false, [], []⟩
    rfl rfl (by decide) (by decide) (by decide) rfl rfl (by decide)).1 (by decide)

/-! ## PatternExtractor (search.go)

The two Go regexps are embedded as small pattern ASTs together with a
backtracking matcher implementing Go's leftmost-first (Perl-style)
semantics: alternatives are tried left to right, lazy quantifiers shortest
first, greedy quantifiers longest first.  Every quantified subpattern in
the source regexps is a single-character class, which the AST reflects. -/

/-- Pattern AST covering the constructs of the two source regexps. -/
inductive RE
  | eps
  | ch (p : Char → Bool)
  | cat (r1 r2 : RE)
  | alt (r1 r2 : RE)
  | starL (p : Char → Bool)
  | starG (p : Char → Bool)
  | plusL (p : Char → Bool)
  | opt (c : Char)
  | grp (r : RE)

/-- Rests of `s` after consuming 0, 1, 2, ... leading `p`-characters,
shortest consumption first. -/
def lazyTakes (p : Char → Bool) : Str → List Str
  | [] => [[]]
  | c :: rest => (c :: rest) :: (if p c then lazyTakes p rest else [])

/-- All ways a pattern can match a prefix of `s`, in backtracking
preference order; each entry is the remaining suffix paired with the text
captured by a `grp`, if any. -/
def splits : RE → Str → List (Str × Option Str)
  | .eps, s => [(s, none)]
  | .ch p, [] => (fun _ => []) p
  | .ch p, c :: rest => if p c then [(rest, none)] else []
  | .cat r1 r2, s =>
    (splits r1 s).flatMap (fun x =>
      (splits r2 x.1).map (fun y =>
        (y.1, match x.2 with | some v => some v | none => y.2)))
  | .alt r1 r2, s => splits r1 s ++ splits r2 s
  | .starL p, s => (lazyTakes p s).map (fun r => (r, none))
  | .starG p, s => ((lazyTakes p s).reverse).map (fun r => (r, none))
  | .plusL p, [] => (fun _ => []) p
  | .plusL p, c :: rest => if p c then (lazyTakes p rest).map (fun r => (r, none)) else []
  | .opt c, [] => (fun _ => [(([] : Str), (none : Option Str))]) c
  | .opt c, d :: rest => if d == c then [(rest, none), (d :: rest, none)] else [(d :: rest, none)]
  | .grp r, s => (splits r s).map (fun x => (x.1, some (s.take (s.length - x.1.length))))

/-- Fuelled `FindAllStringSubmatch`: scan left to right, at each position
take the backtracker's first match, record (matched text, capture), resume
after the match. -/
def findAllF (re : RE) : Nat → Str → List (Str × Option Str)
  | 0, _ => []
  | _ + 1, [] =>
    match splits re [] with
    | (_, cap) :: _ => [([], cap)]
    | [] => []
  | f + 1, c :: rest =>
    match splits re (c :: rest) with
    | (r, cap) :: _ =>
      ((c :: rest).take ((c :: rest).length - r.length), cap) ::
        (if r.length < rest.length + 1 then findAllF re f r else findAllF re f rest)
    | [] => findAllF re f rest

/-- Go `re.FindAllStringSubmatch(content, -1)`, with always-sufficient fuel. -/
def findAll (re : RE) (s : Str) : List (Str × Option Str) := findAllF re (s.length + 1) s

/-- Go `strings.Trim(s, cutset)` for the cutset of `extractNamesFromRegex`. -/
def trimCutset (s : Str) : Str :=
  let cut := fun c : Char => c == Char.ofNat 96 || c == '<' || c == '>' || c == '{' || c == '}'
  ((s.dropWhile cut).reverse.dropWhile cut).reverse

/-- The extractor `extractNamesFromRegex`: prefer a non-blank capture group, otherwise
fall back to the whole match trimmed of surrounding delimiters. -/
def extractNames (re : RE) (content : Str) : List Str :=
  (findAll re content).foldr
    (fun m out =>
      if trim (m.2.getD []) ≠ [] then trim (m.2.getD []) :: out
      else
        let full := trimCutset (trim m.1)
        if full ≠ [] then full :: out else out)
    []

/-- The dot class of a Go regexp: any character except newline. -/
def anyNoNL (c : Char) : Bool := c != '\n'

/-- The catch-all class of a Go regexp: any character. -/
def anyChar (_ : Char) : Bool := true

/-- A literal character pattern. -/
def chLit (c : Char) : RE := .ch (fun d => d == c)

/-- A literal string pattern. -/
def litRE (cs : Str) : RE := cs.foldr (fun c r => .cat (chLit c) r) .eps

/-- The backtick character (0x60). -/
def btick : Char := Char.ofNat 96

/-- The anime regexp from search.go: a backtick span (no capture) or a
brace span with capture. -/
def animeRe : RE :=
  .alt (.cat (chLit btick) (.cat (.starL anyChar) (chLit btick)))
       (.cat (chLit '{') (.cat (.grp (.starL anyNoNL)) (chLit '}')))

/-- The manga regexp from search.go: an angle-bracket URL span, or an
emoji/custom-emoji reference, or a backtick span (all without capture), or
an angle-bracket span with capture. -/
def mangaRe : RE :=
  .alt (.cat (chLit '<') (.cat (.starL anyNoNL) (.cat (litRE (str "http"))
        (.cat (.opt 's') (.cat (litRE (str "://")) (.cat (.starL anyNoNL) (chLit '>')))))))
  (.alt (.cat (chLit '<') (.cat (.opt 'a') (.cat (chLit ':') (.cat (.plusL anyNoNL)
        (.cat (chLit ':') (.cat (.starG Char.isDigit) (chLit '>')))))))
  (.alt (.cat (chLit btick) (.cat (.starL anyChar) (chLit btick)))
        (.cat (chLit '<') (.cat (.grp (.starL anyNoNL)) (chLit '>')))))

/-- The two lookup categories. -/
inductive MediaCat
  | anime
  | manga
  deriving DecidableEq, Repr

/-- The handler `trySearchInMessage` reduced to its observable lookup behaviour: the
ordered list of (category, name) catalog queries one non-command message
triggers.  Mirrors the guards (feature flag, channel allow-list, bot
author) and the primary-then-secondary classification. -/
def trySearchLookups (cfg : Option Config) (ch : Chan) (authorBot : Bool)
    (content : Str) : List (MediaCat × Str) :=
  match cfg with
  | none => []
  | some c =>
    match c.searchEnabled with
    | none => []
    | some false => []
    | some true =>
      if c.searchChannels ≠ [] ∧
          ¬ (ch.id ∈ c.searchChannels ∨ ch.parentID ∈ c.searchChannels) then []
      else if authorBot then []
      else
        match extractNames animeRe content with
        | [] => (extractNames mangaRe content).map (fun n => (MediaCat.manga, n))
        | n :: rest => ((n :: rest)).map (fun n => (MediaCat.anime, n))

/-! ## Search flow: C3 and C7 -/

/--
C3 (code bug): contrary to the intended false-positive filtering (the URL
and emoji alternatives of the manga regexp carry no capture group precisely
so they are swallowed), `extractNamesFromRegex`'s whole-match fallback
strips the delimiters and resurrects them as candidates: the message
"<https://example.com>" yields the candidate "https://example.com" and a
manga catalog lookup is performed; "<a:smile:123>" yields "a:smile:123".
-/
theorem urlAngleBracket_extraction_bug :
    extractNames animeRe (str "<https://example.com>") = [] ∧
    extractNames mangaRe (str "<https://example.com>") = [str "https://example.com"] ∧
    trySearchLookups (some ⟨[], [], some true, []⟩)
        ⟨str "c1", str "p1", str "g1", str "general", 0, false, [], []⟩ false
        (str "<https://example.com>")
      = [(MediaCat.manga, str "https://example.com")] ∧
    extractNames mangaRe (str "<a:smile:123>") = [str "a:smile:123"] := by
  refine ⟨by decide, by decide, ?_, by decide⟩
  decide

/--
C7 (confirmed): if the primary (anime) grammar extracts at least one
candidate from a message, every catalog lookup the search flow performs
for that message is an anime lookup — the manga grammar's results are
never consulted.
-/
theorem primary_category_short_circuit (cfg : Option Config) (ch : Chan)
    (authorBot : Bool) (content : Str)
    (hanime : extractNames animeRe content ≠ []) :
    (trySearchLookups cfg ch authorBot content).all
      (fun x => x.1 == MediaCat.anime) = true := by
  rcases cfg with _ | c
  · rfl
  rw [trySearchLookups.eq_def]
  dsimp only
  rcases hse : c.searchEnabled with _ | b
  · rfl
  · cases b
    · rfl
    · dsimp only
      split
      · rfl
      split
      · rfl
      rcases hex : extractNames animeRe content with _ | ⟨n, rest⟩
      · exact absurd hex hanime
      · rw [List.all_eq_true]
        intro x hx
        rcases List.mem_map.mp hx with ⟨y, _, rfl⟩
        rfl

/-- Witness for C7: "{Naruto}" extracts an anime candidate and the flow
performs only anime lookups. -/
theorem primary_category_short_circuit_witness :
    (trySearchLookups (some ⟨[], [], some true, []⟩)
        ⟨str "c1", str "p1", str "g1", str "general", 0, false, [], []⟩ false
        (str "{Naruto}")).all (fun x => x.1 == MediaCat.anime) = true :=
  primary_category_short_circuit (some ⟨[], [], some true, []⟩)
    ⟨str "c1", str "p1", str "g1", str "general", 0, false, [], []⟩ false
    (str "{Naruto}") (by decide)

/-! ## MediaLookupClient (`searchAniList` and `stripTags` in search.go) -/

/-- Find the first `>` and return what follows (the tail of one `<[^>]*>`
match), or `none` if no `>` remains. -/
def dropTag : Str → Option Str
  | [] => none
  | '>' :: rest => some rest
  | _ :: rest => dropTag rest

/-- Fuelled `tagRe.ReplaceAllString(s, "")`: delete every span from a `<`
to the nearest following `>`; a `<` with no later `>` is kept. -/
def stripHtmlF : Nat → Str → Str
  | 0, s => s
  | _ + 1, [] => []
  | f + 1, '<' :: rest =>
    match dropTag rest with
    | some after => stripHtmlF f after
    | none => '<' :: stripHtmlF f rest
  | f + 1, c :: rest => c :: stripHtmlF f rest

/-- Go `strings.ReplaceAll(s, "\n\n", "\n")`: left-to-right, non-overlapping. -/
def collapseNl : Str → Str
  | '\n' :: '\n' :: rest => '\n' :: collapseNl rest
  | c :: rest => c :: collapseNl rest
  | [] => []

/-- The helper `stripTags` from search.go. -/
def stripTags (s : Str) : Str :=
  if s == [] then s else trim (collapseNl (stripHtmlF (s.length + 1) s))

/-- One entry of the decoded AniList `Page.media` array. -/
structure RawMediaEntry where
  mid : Nat
  siteUrl : Str
  titleRomaji : Str
  titleEnglish : Str
  titleNative : Str
  description : Str
  genres : List Str
  coverLarge : Str
  coverColor : Str
  format : Str
  startYear : Nat
  startMonth : Nat
  startDay : Nat
  deriving DecidableEq, Repr

/-- The decoded response payload (`data.Page.media`). -/
structure AniPage where
  media : List RawMediaEntry
  deriving DecidableEq, Repr

/-- What the remote AniList query can come back with: a transport error,
or an HTTP response with a status code and a body that either decodes to a
payload or does not (`none`). -/
inductive RemoteOutcome
  | netErr
  | httpResp (status : Nat) (decoded : Option AniPage)
  deriving DecidableEq, Repr

/-- The error cases of `searchAniList`. -/
inductive AErr
  | emptySearch
  | netErr
  | badStatus (code : Nat)
  | decodeErr
  deriving DecidableEq, Repr

/-- The normalized media record (`aniListMedia`).  The `%04d-%02d-%02d`
date formatting is kept structured. -/
structure AniListMedia where
  mid : Nat
  siteUrl : Str
  title : Str
  desc : Str
  genres : List Str
  coverUrl : Str
  format : Str
  colorHex : Str
  startDate : Option (Nat × Nat × Nat)
  deriving DecidableEq, Repr

/-- Title preference of `searchAniList`: english, then romaji, then native. -/
def pickTitle (e : RawMediaEntry) : Str :=
  if e.titleEnglish ≠ [] then e.titleEnglish
  else if e.titleRomaji ≠ [] then e.titleRomaji
  else e.titleNative

/-- Construction of the returned `aniListMedia` from the first entry. -/
def buildMedia (e : RawMediaEntry) : AniListMedia :=
  { mid := e.mid, siteUrl := e.siteUrl, title := pickTitle e,
    desc := stripTags e.description, genres := e.genres,
    coverUrl := e.coverLarge, format := e.format, colorHex := e.coverColor,
    startDate := if e.startYear ≠ 0 then some (e.startYear, e.startMonth, e.startDay) else none }

/-- The lookup `searchAniList(name, mediaType, allowAdult)` with the remote
interaction supplied as an oracle.  The category and adult flag only shape
the outgoing query, which the oracle already accounts for. -/
def searchAniList (name : Str) (_mediaType : MediaCat) (_allowAdult : Bool)
    (remote : RemoteOutcome) : Except AErr (Option AniListMedia) :=
  if trim name == [] then .error .emptySearch
  else
    match remote with
    | .netErr => .error .netErr
    | .httpResp status decoded =>
      if status != 200 then .error (.badStatus status)
      else
        match decoded with
        | none => .error .decodeErr
        | some page =>
          match page.media with
          | [] => .ok none
          | e :: _ => .ok (some (buildMedia e))

/-- Whether the result is an error. -/
def isFail {α : Type} : Except AErr α → Bool
  | .error _ => true
  | .ok _ => false

/-- Whether the remote query fails: network failure, non-success status, or an
undecodable body. -/
def remoteFailed : RemoteOutcome → Bool
  | .netErr => true
  | .httpResp status decoded => status != 200 || decoded.isNone

/--
C8 counterexample: for the blank lookup name `""` (which the extractor can
never produce, but which the claim's universal quantification covers),
`searchAniList` returns an "empty search" error even though the remote
query succeeds, so "error exactly when the remote query fails" is false as
stated.
-/
theorem mediaLookup_error_contract_counterexample :
    ¬ (isFail (searchAniList [] MediaCat.anime false (.httpResp 200 (some ⟨[]⟩))) =
        remoteFailed (.httpResp 200 (some ⟨[]⟩))) := by
  decide

/--
C8 amended (the claim restricted to names that are not whitespace-only —
the only names the extraction pipeline can feed to the lookup): the lookup
returns an error exactly when the remote query fails (network failure,
non-success HTTP status, or an undecodable body), and a decoded empty
result list yields "no match" (`ok none`), not an error.
-/
theorem mediaLookup_error_contract_amended (name : Str) (mt : MediaCat)
    (adult : Bool) (remote : RemoteOutcome) (hname : trim name ≠ []) :
    (isFail (searchAniList name mt adult remote) = remoteFailed remote) ∧
    (∀ page, remote = .httpResp 200 (some page) → page.media = [] →
      searchAniList name mt adult remote = .ok none) := by
  have hname2 : (trim name == ([] : Str)) = false := by rwa [beq_eq_false_iff_ne]
  constructor
  · rw [searchAniList.eq_def, hname2]
    simp only [Bool.false_eq_true, if_false]
    rcases remote with _ | ⟨status, decoded⟩
    · rfl
    · dsimp only
      simp only [remoteFailed]
      rcases hst : status != 200
      · simp only [Bool.false_eq_true, if_false, Bool.false_or]
        rcases decoded with _ | page
        · rfl
        · rcases page with ⟨media⟩
          rcases media with _ | ⟨e, rest⟩ <;> rfl
      · rfl
  · rintro page rfl hmedia
    rw [searchAniList.eq_def, hname2]
    simp only [Bool.false_eq_true, if_false, bne_self_eq_false, hmedia]

/-- Witness for C8 amended: the name "One Piece" with a successful remote
response whose media list is empty yields `ok none`. -/
theorem mediaLookup_error_contract_amended_witness :
    (isFail (searchAniList (str "One Piece") MediaCat.anime false
        (.httpResp 200 (some ⟨[]⟩))) =
      remoteFailed (.httpResp 200 (some ⟨[]⟩))) ∧
    searchAniList (str "One Piece") MediaCat.anime false
        (.httpResp 200 (some ⟨[]⟩)) = .ok none := by
  have h := mediaLookup_error_contract_amended (str "One Piece") MediaCat.anime
    false (.httpResp 200 (some ⟨[]⟩)) (by decide)
  exact ⟨h.1, h.2 ⟨[]⟩ rfl rfl⟩

/-! ## TitlePrefixer lemmas (towards C2) -/

theorem length_trimLeft_le (s : Str) : (trimLeft s).length ≤ s.length :=
  (List.dropWhile_sublist isSpace).length_le

theorem length_trimRight_le (s : Str) : (trimRight s).length ≤ s.length := by
  rw [trimRight, List.length_reverse]
  calc (s.reverse.dropWhile isSpace).length ≤ s.reverse.length :=
        (List.dropWhile_sublist isSpace).length_le
    _ = s.length := List.length_reverse s

theorem length_trim_le (s : Str) : (trim s).length ≤ s.length :=
  le_trans (length_trimRight_le (trimLeft s)) (length_trimLeft_le s)

theorem trimLeft_suffix (s : Str) : trimLeft s <:+ s := List.dropWhile_suffix isSpace

theorem trimRight_isPrefix (s : Str) : trimRight s <+: s := by
  rw [trimRight, ← List.reverse_reverse s]
  rw [ List.reverse_prefix]
  rw [List.reverse_reverse]
  exact List.dropWhile_suffix isSpace

theorem trim_isInfix (s : Str) : trim s <:+: s :=
  ((trimRight_isPrefix (trimLeft s)).isInfix).trans ((trimLeft_suffix s).isInfix)

theorem trimLeft_cons_of_nonspace {c : Char} (h : isSpace c = false) (s : Str) :
    trimLeft (c :: s) = c :: s := by
  rw [trimLeft, List.dropWhile_cons, h]
  simp

theorem dropWhile_head_false {p : Char → Bool} :
    ∀ {s : Str} {c : Char} {t : Str}, s.dropWhile p = c :: t → p c = false := by
  intro s
  induction s with
  | nil => intro c t h; simp at h
  | cons a s ih =>
    intro c t h
    rw [List.dropWhile_cons] at h
    by_cases ha : p a = true
    · rw [if_pos ha] at h
      exact ih h
    · rw [if_neg ha] at h
      cases h
      rwa [Bool.not_eq_true] at ha

theorem trimLeft_eq_of_trimmed {s : Str} (h : trim s = s) : trimLeft s = s := by
  have hlen : s.length ≤ (trimLeft s).length := by
    have h1 := congrArg List.length h
    rw [trim] at h1
    have h2 := length_trimRight_le (trimLeft s)
    omega
  exact (trimLeft_suffix s).sublist.eq_of_length
    (le_antisymm ((trimLeft_suffix s).length_le) hlen ▸ rfl)

theorem trimRight_eq_of_trimmed {s : Str} (h : trim s = s) : trimRight s = s := by
  have hL := trimLeft_eq_of_trimmed h
  rw [trim, hL] at h
  exact h

theorem trimRight_trimRight (x : Str) : trimRight (trimRight x) = trimRight x := by
  rw [trimRight, trimRight, List.reverse_reverse]
  cases h : x.reverse.dropWhile isSpace with
  | nil => simp
  | cons c t =>
    have hc := dropWhile_head_false h
    rw [List.dropWhile_cons, hc]
    simp

theorem trimRight_trim (s : Str) : trimRight (trim s) = trim s := by
  rw [trim]
  exact trimRight_trimRight (trimLeft s)

theorem trimLeft_trim (s : Str) : trimLeft (trim s) = trim s := by
  cases h : trim s with
  | nil => rfl
  | cons c t =>
    have hpfx : (c :: t) <+: trimLeft s := h ▸ trimRight_isPrefix (trimLeft s)
    obtain ⟨r, hr⟩ := hpfx
    have hc : isSpace c = false :=
      dropWhile_head_false (p := isSpace) (s := s) (c := c) (t := t ++ r) hr.symm
    exact trimLeft_cons_of_nonspace hc t

theorem trim_trim (s : Str) : trim (trim s) = trim s := by
  rw [trim, trimLeft_trim]
  exact trimRight_trim s

theorem trim_cons_space (s : Str) : trim (' ' :: s) = trim s := by
  rw [trim, trim, trimLeft, trimLeft, List.dropWhile_cons]
  have h : isSpace ' ' = true := by decide
  rw [h]
  simp

theorem stripOnce_some {s kp s2 : Str} (h : stripOnce s kp = some s2) :
    (lower kp).isPrefixOf (lower s) = true ∧ s2 = trim (s.drop kp.length) := by
  rw [stripOnce] at h
  split at h
  · rename_i hc
    exact ⟨hc, (Option.some.injEq _ _ ▸ h).symm⟩
  · exact absurd h (by simp)

theorem findSome_strip_length :
    ∀ (l : List Str) {s s2 : Str}, (∀ kp ∈ l, kp ≠ []) →
      l.findSome? (stripOnce s) = some s2 → s2.length < s.length ∧ trim s2 = s2 := by
  intro l
  induction l with
  | nil => intro s s2 _ h; simp at h
  | cons kp l ih =>
    intro s s2 hne h
    rw [List.findSome?_cons] at h
    cases hk : stripOnce s kp with
    | some v =>
      rw [hk] at h
      cases h
      obtain ⟨hpfx, hv⟩ := stripOnce_some hk
      have hlen : kp.length ≤ s.length := by
        rw [ List.isPrefixOf_iff_prefix] at hpfx
        have h2 := hpfx.length_le
        simpa [lower] using h2
      have hkp : 0 < kp.length :=
        List.length_pos.mpr (hne kp (List.mem_cons_self ..))
      have hdrop : (s.drop kp.length).length = s.length - kp.length := by simp
      have htrim := length_trim_le (s.drop kp.length)
      subst hv
      exact ⟨by omega, trim_trim _⟩
    | none =>
      rw [hk] at h
      exact ih (fun u hu => hne u (List.mem_cons_of_mem _ hu)) h

theorem findStrip_some_spec {s s2 : Str} (h : findStrip s = some s2) :
    s2.length < s.length ∧ trim s2 = s2 :=
  findSome_strip_length knownPrefixes (by decide) h

theorem stripKnownF_congr :
    ∀ (f1 f2 : Nat) (s : Str), s.length < f1 → s.length < f2 →
      stripKnownF f1 s = stripKnownF f2 s := by
  intro f1
  induction f1 with
  | zero => intro f2 s h1 _; exact absurd h1 (Nat.not_lt_zero _)
  | succ f ih =>
    intro f2 s h1 h2
    cases f2 with
    | zero => exact absurd h2 (Nat.not_lt_zero _)
    | succ g =>
      simp only [stripKnownF]
      cases hf : findStrip s with
      | none => rfl
      | some s2 =>
        have hlt := (findStrip_some_spec hf).1
        exact ih g s2 (by omega) (by omega)

/-- The loop unfolding of `stripKnown`. -/
theorem stripKnown_eq (s : Str) :
    stripKnown s = match findStrip s with
      | some s2 => stripKnown s2
      | none => s := by
  rw [stripKnown]
  simp only [stripKnownF]
  cases hf : findStrip s with
  | none => rfl
  | some s2 =>
    have hlt := (findStrip_some_spec hf).1
    exact stripKnownF_congr s.length (s2.length + 1) s2 (by omega) (by omega)

/-- The stripping loop stops at a fixed point: nothing strips further. -/
theorem stripKnown_fix : ∀ s : Str, findStrip (stripKnown s) = none := by
  intro s
  generalize hn : s.length = n
  induction n using Nat.strong_induction_on generalizing s with
  | _ n ih =>
    rw [stripKnown_eq]
    cases hf : findStrip s with
    | none => exact hf
    | some s2 =>
      exact ih s2.length (by have := (findStrip_some_spec hf).1; omega) s2 rfl

/-- The stripping loop preserves trimmedness. -/
theorem stripKnown_trimmed : ∀ s : Str, trim s = s → trim (stripKnown s) = stripKnown s := by
  intro s
  generalize hn : s.length = n
  induction n using Nat.strong_induction_on generalizing s with
  | _ n ih =>
    intro hs
    rw [stripKnown_eq]
    cases hf : findStrip s with
    | none => exact hs
    | some s2 =>
      obtain ⟨hlt, htr⟩ := findStrip_some_spec hf
      exact ih s2.length (by omega) s2 rfl htr

theorem stripKnown_trim_trimmed (s : Str) :
    trim (stripKnown (trim s)) = stripKnown (trim s) :=
  stripKnown_trimmed (trim s) (trim_trim s)

/-- Rejecting a prefix candidate by a disagreement within the concrete
region `u`, independently of the symbolic tail `x`. -/
theorem not_prefix_of_take_ne {p u : Str}
    (h : p.take u.length ≠ u.take p.length) (x : Str) : ¬ p <+: u ++ x := by
  intro hp
  apply h
  have hp2 : p = (u ++ x).take p.length := List.prefix_iff_eq_take.mp hp
  calc p.take u.length = ((u ++ x).take p.length).take u.length := by rw [← hp2]
    _ = (u ++ x).take (min u.length p.length) := List.take_take ..
    _ = ((u ++ x).take u.length).take p.length := by rw [List.take_take, Nat.min_comm]
    _ = u.take p.length := by rw [List.take_left]

theorem lower_append_space (q s : Str) :
    lower (q ++ ' ' :: s) = (lower q ++ [' ']) ++ lower s := by
  have h : Char.toLower ' ' = ' ' := by decide
  simp [lower, h]

theorem stripOnce_append_none {kp q : Str} (s : Str)
    (h : (lower kp).take (lower q ++ [' ']).length ≠
      (lower q ++ [' ']).take (lower kp).length) :
    stripOnce (q ++ ' ' :: s) kp = none := by
  have hnp : ¬ ((lower kp).isPrefixOf (lower (q ++ ' ' :: s)) = true) := by
    rw [ List.isPrefixOf_iff_prefix, lower_append_space]
    exact not_prefix_of_take_ne h (lower s)
  rw [stripOnce, if_neg hnp]

theorem stripOnce_append_self (p s : Str) (hs : trim s = s) :
    stripOnce (p ++ ' ' :: s) p = some s := by
  have hpfx : (lower p).isPrefixOf (lower (p ++ ' ' :: s)) = true := by
    rw [ List.isPrefixOf_iff_prefix, lower_append_space, List.append_assoc]
    exact List.prefix_append ..
  rw [stripOnce, if_pos hpfx]
  congr 1
  have hd : (p ++ ' ' :: s).drop p.length = ' ' :: s := List.drop_left p (' ' :: s)
  rw [hd, trim_cons_space, hs]

/-- The matching step of the stripping loop on a string of the shape
`P ++ " " ++ s` for a managed prefix `P` and a trimmed `s`: the first (and
only) prefix to match is `P` itself, leaving `s`. -/
theorem findStrip_prefixed {p : Str} (hp : p ∈ knownPrefixes) {s : Str} (hs : trim s = s) :
    findStrip (p ++ ' ' :: s) = some s := by
  simp only [knownPrefixes, List.mem_cons, List.not_mem_nil, or_false] at hp
  rcases hp with rfl | rfl | rfl | rfl | rfl | rfl
  · rw [findStrip, knownPrefixes, List.findSome?_cons, stripOnce_append_self _ _ hs]
  · rw [findStrip, knownPrefixes,
      List.findSome?_cons, stripOnce_append_none _ (by decide),
      List.findSome?_cons, stripOnce_append_self _ _ hs]
  · rw [findStrip, knownPrefixes,
      List.findSome?_cons, stripOnce_append_none _ (by decide),
      List.findSome?_cons, stripOnce_append_none _ (by decide),
      List.findSome?_cons, stripOnce_append_self _ _ hs]
  · rw [findStrip, knownPrefixes,
      List.findSome?_cons, stripOnce_append_none _ (by decide),
      List.findSome?_cons, stripOnce_append_none _ (by decide),
      List.findSome?_cons, stripOnce_append_none _ (by decide),
      List.findSome?_cons, stripOnce_append_self _ _ hs]
  · rw [findStrip, knownPrefixes,
      List.findSome?_cons, stripOnce_append_none _ (by decide),
      List.findSome?_cons, stripOnce_append_none _ (by decide),
      List.findSome?_cons, stripOnce_append_none _ (by decide),
      List.findSome?_cons, stripOnce_append_none _ (by decide),
      List.findSome?_cons, stripOnce_append_self _ _ hs]
  · rw [findStrip, knownPrefixes,
      List.findSome?_cons, stripOnce_append_none _ (by decide),
      List.findSome?_cons, stripOnce_append_none _ (by decide),
      List.findSome?_cons, stripOnce_append_none _ (by decide),
      List.findSome?_cons, stripOnce_append_none _ (by decide),
      List.findSome?_cons, stripOnce_append_none _ (by decide),
      List.findSome?_cons, stripOnce_append_self _ _ hs]

theorem stripKnown_prefixed {p : Str} (hp : p ∈ knownPrefixes) {s : Str}
    (hs : trim s = s) (hfix : findStrip s = none) :
    stripKnown (p ++ ' ' :: s) = s := by
  rw [stripKnown_eq, findStrip_prefixed hp hs]
  show stripKnown s = s
  rw [stripKnown_eq, hfix]

theorem trimRight_eq_self_of_last {x : Str} {c : Char} {t : Str}
    (hrev : x.reverse = c :: t) (hc : isSpace c = false) : trimRight x = x := by
  rw [trimRight, hrev, List.dropWhile_cons, hc]
  simp only [Bool.false_eq_true, if_false]
  rw [← hrev, List.reverse_reverse]

theorem trim_prefixed_ne {p : Str} (hp : p ∈ knownPrefixes) {s : Str}
    (hs : trim s = s) (hne : s ≠ []) :
    trim (p ++ ' ' :: s) = p ++ ' ' :: s := by
  have hhead : ∃ t, p = '[' :: t := by
    simp only [knownPrefixes, List.mem_cons, List.not_mem_nil, or_false] at hp
    rcases hp with rfl | rfl | rfl | rfl | rfl | rfl <;> exact ⟨_, rfl⟩
  obtain ⟨pt, rfl⟩ := hhead
  rw [trim]
  have h1 : trimLeft (('[' :: pt) ++ ' ' :: s) = ('[' :: pt) ++ ' ' :: s := by
    rw [List.cons_append]
    exact trimLeft_cons_of_nonspace (by decide) _
  rw [h1]
  cases hsr : s.reverse with
  | nil =>
    exfalso
    apply hne
    rw [← List.reverse_reverse s, hsr]
    rfl
  | cons c t =>
    have hx : (('[' :: pt) ++ ' ' :: s).reverse = c :: (t ++ [' '] ++ ('[' :: pt).reverse) := by
      rw [List.reverse_append, List.reverse_cons, hsr]
      simp
    have hdw : s.reverse.dropWhile isSpace = s.reverse := by
      have h2 := trimRight_eq_of_trimmed hs
      rw [trimRight] at h2
      have h3 := congrArg List.reverse h2
      rwa [List.reverse_reverse] at h3
    rw [hsr] at hdw
    exact trimRight_eq_self_of_last hx (dropWhile_head_false hdw)

/-- Re-prefixing an already-prefixed title with any managed prefix replaces
the old prefix: the stripping loop removes exactly `P1 ++ " "` and keeps
the stripped remainder. -/
theorem addPrefix_stable {p1 p2 : Str} (hp1 : p1 ∈ knownPrefixes) {s : Str}
    (hs : trim s = s) (hfix : findStrip s = none) :
    addPrefixIfMissing (p1 ++ ' ' :: s) p2 = p2 ++ ' ' :: s := by
  rw [addPrefixIfMissing]
  congr 1
  by_cases hne : s = []
  · subst hne
    simp only [knownPrefixes, List.mem_cons, List.not_mem_nil, or_false] at hp1
    rcases hp1 with rfl | rfl | rfl | rfl | rfl | rfl <;> decide
  · rw [trim_prefixed_ne hp1 hs hne, stripKnown_prefixed hp1 hs hfix]

theorem addPrefix_addPrefix {p1 p2 : Str} (hp1 : p1 ∈ knownPrefixes) (t : Str) :
    addPrefixIfMissing (addPrefixIfMissing t p1) p2 =
      p2 ++ ' ' :: stripKnown (trim t) := by
  have hinner : addPrefixIfMissing t p1 = p1 ++ ' ' :: stripKnown (trim t) := rfl
  rw [hinner]
  exact addPrefix_stable hp1 (stripKnown_trim_trimmed t) (stripKnown_fix (trim t))

/-- A title is clean when no managed prefix occurs case-insensitively
anywhere inside it. -/
def CleanTitle (t : Str) : Prop := ∀ q ∈ knownPrefixes, ¬ (lower q <:+: lower t)

instance (t : Str) : Decidable (CleanTitle t) := by
  unfold CleanTitle
  infer_instance

theorem findStrip_clean {t : Str} (hc : CleanTitle t) : findStrip (trim t) = none := by
  rw [findStrip, List.findSome?_eq_none_iff]
  intro kp hkp
  have hnp : ¬ ((lower kp).isPrefixOf (lower (trim t)) = true) := by
    rw [ List.isPrefixOf_iff_prefix]
    intro hpfx
    exact hc kp hkp (hpfx.isInfix.trans ((trim_isInfix t).map Char.toLower))
  rw [stripOnce, if_neg hnp]

theorem stripKnown_clean {t : Str} (hc : CleanTitle t) :
    stripKnown (trim t) = trim t := by
  rw [stripKnown_eq, findStrip_clean hc]

theorem addPrefix_clean {p t : Str} (hc : CleanTitle t) :
    addPrefixIfMissing t p = p ++ ' ' :: trim t := by
  rw [addPrefixIfMissing, stripKnown_clean hc]

theorem not_infix_trim {q t : Str} (hq : ¬ (lower q <:+: lower t)) :
    ¬ (q <:+: trim t) := by
  intro h
  exact hq ((h.map Char.toLower).trans ((trim_isInfix t).map Char.toLower))

/-- Number of (possibly overlapping) occurrence positions of `p` in `s`
(`strings.Contains`-style substring occurrences, counted). -/
def countOccs (p : Str) : Str → Nat
  | [] => if p == [] then 1 else 0
  | c :: rest => (if p.isPrefixOf (c :: rest) then 1 else 0) + countOccs p rest

theorem countOccs_append_of_head {p : Str} {hc : Char} (hhead : p.head? = some hc) :
    ∀ (u T : Str), (∀ c ∈ u, c ≠ hc) → countOccs p (u ++ T) = countOccs p T := by
  intro u
  induction u with
  | nil => intro T _; rfl
  | cons a u ih =>
    intro T hu
    rw [List.cons_append, countOccs]
    have hnp : p.isPrefixOf (a :: (u ++ T)) = false := by
      cases p with
      | nil => simp at hhead
      | cons pc pr =>
        have hpc : pc = hc := by
          rw [List.head?_cons] at hhead
          exact Option.some.injEq _ _ ▸ hhead
        have hne : (pc == a) = false := by
          rw [beq_eq_false_iff_ne]
          intro h
          exact (hu a (List.mem_cons_self ..)) (by rw [← h, hpc])
        simp [List.isPrefixOf, hne]
    rw [hnp]
    simp only [Bool.false_eq_true, if_false, Nat.zero_add]
    exact ih T (fun c hcm => hu c (List.mem_cons_of_mem _ hcm))

theorem countOccs_eq_zero_iff {p : Str} (hp : p ≠ []) :
    ∀ s, countOccs p s = 0 ↔ ¬ (p <:+: s) := by
  intro s
  induction s with
  | nil =>
    rw [countOccs]
    have h1 : (p == ([] : Str)) = false := by rwa [beq_eq_false_iff_ne]
    rw [h1]
    simp [List.infix_nil, hp]
  | cons c rest ih =>
    rw [countOccs]
    constructor
    · intro h
      rw [List.infix_cons_iff]
      rintro (hpfx | hinf)
      · rw [← List.isPrefixOf_iff_prefix] at hpfx
        rw [hpfx] at h
        simp at h
      · have h2 : countOccs p rest = 0 := by omega
        exact (ih.mp h2) hinf
    · intro h
      rw [List.infix_cons_iff] at h
      obtain ⟨h1, h2⟩ := not_or.mp h
      have h3 : p.isPrefixOf (c :: rest) = false := by
        rw [← Bool.not_eq_true, List.isPrefixOf_iff_prefix]
        exact h1
      rw [h3]
      simp only [Bool.false_eq_true, if_false, Nat.zero_add]
      exact ih.mpr h2

/-- Exactly one occurrence of the managed prefix `p2` in `p2 ++ " " ++ T`
when `p2` does not occur in `T`: the head character of `p2` appears nowhere
else in the concrete region. -/
theorem countOccs_prefixed {p2 : Str} {hc : Char} {tl : Str}
    (hform : p2 = hc :: tl) (htl : ∀ c ∈ tl ++ [' '], c ≠ hc) (hpne : p2 ≠ [])
    {T : Str} (hnp : ¬ (p2 <:+: T)) :
    countOccs p2 (p2 ++ ' ' :: T) = 1 := by
  have hsplit : p2 ++ ' ' :: T = hc :: ((tl ++ [' ']) ++ T) := by
    rw [hform]; simp
  rw [hsplit, countOccs]
  have hpfx : p2.isPrefixOf (hc :: ((tl ++ [' ']) ++ T)) = true := by
    rw [ List.isPrefixOf_iff_prefix, ← hsplit]
    exact List.prefix_append ..
  rw [hpfx]
  rw [countOccs_append_of_head (by rw [hform]; rfl) (tl ++ [' ']) T htl]
  rw [(countOccs_eq_zero_iff hpne T).mpr hnp]
  rfl

/-- No occurrence of a different managed prefix `p1` in `p2 ++ " " ++ T`
when `p1` does not occur in `T`. -/
theorem countOccs_cross {p1 p2 : Str} {hc : Char} {tl : Str}
    (hform : p2 = hc :: tl) (htl : ∀ c ∈ tl ++ [' '], c ≠ hc)
    (hhead1 : p1.head? = some hc) (hp1ne : p1 ≠ [])
    (htake : p1.take (p2 ++ [' ']).length ≠ (p2 ++ [' ']).take p1.length)
    {T : Str} (hnp : ¬ (p1 <:+: T)) :
    countOccs p1 (p2 ++ ' ' :: T) = 0 := by
  have hsplit : p2 ++ ' ' :: T = hc :: ((tl ++ [' ']) ++ T) := by
    rw [hform]; simp
  rw [hsplit, countOccs]
  have hpfx : p1.isPrefixOf (hc :: ((tl ++ [' ']) ++ T)) = false := by
    rw [← Bool.not_eq_true, List.isPrefixOf_iff_prefix, ← hsplit,
      show p2 ++ ' ' :: T = (p2 ++ [' ']) ++ T by simp]
    exact not_prefix_of_take_ne htake T
  rw [hpfx]
  simp only [Bool.false_eq_true, if_false, Nat.zero_add]
  rw [countOccs_append_of_head hhead1 (tl ++ [' ']) T htl]
  exact (countOccs_eq_zero_iff hp1ne T).mpr hnp

/--
C2 counterexample: the replacement property fails as universally stated.
For the title "a [Duplicate] b", applying "[Solved]" then "[Duplicate]"
yields "[Duplicate] a [Duplicate] b", which contains "[Duplicate]" twice,
not exactly once — the stripping loop only removes managed prefixes at the
start, not mid-string occurrences.
-/
theorem titlePrefixer_replacement_counterexample :
    countOccs (str "[Duplicate]")
      (addPrefixIfMissing
        (addPrefixIfMissing (str "a [Duplicate] b") (str "[Solved]"))
        (str "[Duplicate]")) = 2 ∧
    ¬ countOccs (str "[Duplicate]")
      (addPrefixIfMissing
        (addPrefixIfMissing (str "a [Duplicate] b") (str "[Solved]"))
        (str "[Duplicate]")) = 1 := by
  constructor <;> decide

/--
C2 amended (the replacement and preservation clauses restricted to titles
in which no managed prefix occurs case-insensitively as a substring, and
replacement to distinct prefixes — the counterexample shows mid-title
occurrences survive): (1) `addPrefixIfMissing` is idempotent for every
title and managed prefix; (2) for distinct managed prefixes P1, P2 and a
clean title, applying P2 after P1 yields a title containing P2 exactly
once and not containing P1; (3) any segment of the trimmed clean title
(e.g. unrelated bracketed text) is preserved.
-/
theorem titlePrefixer_properties_amended :
    (∀ (t p : Str), p ∈ knownPrefixes →
      addPrefixIfMissing (addPrefixIfMissing t p) p = addPrefixIfMissing t p) ∧
    (∀ (t p1 p2 : Str), p1 ∈ knownPrefixes → p2 ∈ knownPrefixes → p1 ≠ p2 →
      CleanTitle t →
      countOccs p2 (addPrefixIfMissing (addPrefixIfMissing t p1) p2) = 1 ∧
      ¬ (p1 <:+: addPrefixIfMissing (addPrefixIfMissing t p1) p2)) ∧
    (∀ (t seg p : Str), p ∈ knownPrefixes → CleanTitle t →
      seg <:+: trim t → seg <:+: addPrefixIfMissing t p) := by
  refine ⟨?_, ?_, ?_⟩
  · intro t p hp
    exact addPrefix_addPrefix hp t
  · intro t p1 p2 hp1 hp2 hne hc
    have hres : addPrefixIfMissing (addPrefixIfMissing t p1) p2 = p2 ++ ' ' :: trim t := by
      rw [addPrefix_addPrefix hp1 t, stripKnown_clean hc]
    rw [hres]
    have hnp2 : ¬ (p2 <:+: trim t) := not_infix_trim (hc p2 hp2)
    have hnp1 : ¬ (p1 <:+: trim t) := not_infix_trim (hc p1 hp1)
    constructor
    · simp only [knownPrefixes, List.mem_cons, List.not_mem_nil, or_false] at hp2
      rcases hp2 with rfl | rfl | rfl | rfl | rfl | rfl <;>
        exact countOccs_prefixed rfl (by decide) (by decide) hnp2
    · simp only [knownPrefixes, List.mem_cons, List.not_mem_nil, or_false] at hp1 hp2
      rcases hp1 with rfl | rfl | rfl | rfl | rfl | rfl <;>
        rcases hp2 with rfl | rfl | rfl | rfl | rfl | rfl <;>
        first
        | exact absurd rfl hne
        | exact (countOccs_eq_zero_iff (by decide) _).mp
            (countOccs_cross rfl (by decide) (by decide) (by decide) (by decide) hnp1)
  · intro t seg p hp hc hseg
    rw [addPrefix_clean hc]
    exact hseg.trans ⟨p ++ [' '], [], by simp⟩

/-- Witness for C2 amended at the clean title "my issue [Help!]":
idempotence of "[Solved]", replacement of "[Solved]" by "[Duplicate]", and
preservation of the user's bracketed text "[Help!]". -/
theorem titlePrefixer_properties_amended_witness :
    addPrefixIfMissing (addPrefixIfMissing (str "my issue [Help!]") (str "[Solved]"))
        (str "[Solved]")
      = addPrefixIfMissing (str "my issue [Help!]") (str "[Solved]") ∧
    countOccs (str "[Duplicate]")
      (addPrefixIfMissing (addPrefixIfMissing (str "my issue [Help!]") (str "[Solved]"))
        (str "[Duplicate]")) = 1 ∧
    ¬ ((str "[Solved]") <:+:
      addPrefixIfMissing (addPrefixIfMissing (str "my issue [Help!]") (str "[Solved]"))
        (str "[Duplicate]")) ∧
    (str "[Help!]") <:+: addPrefixIfMissing (str "my issue [Help!]") (str "[Known issue]") := by
  have h := titlePrefixer_properties_amended
  refine ⟨h.1 (str "my issue [Help!]") (str "[Solved]") (by decide), ?_, ?_, ?_⟩
  · exact (h.2.1 (str "my issue [Help!]") (str "[Solved]") (str "[Duplicate]")
      (by decide) (by decide) (by decide) (by decide)).1
  · exact (h.2.1 (str "my issue [Help!]") (str "[Solved]") (str "[Duplicate]")
      (by decide) (by decide) (by decide) (by decide)).2
  · exact h.2.2 (str "my issue [Help!]") (str "[Help!]") (str "[Known issue]")
      (by decide) (by decide) (by decide)

end Kotatsu
